import Mathlib

/-!
Shallow embedding of the `ztr` compression tool (Rust) for specification
verification.  Paths are modelled as lists of components (`List String`);
machine I/O (the real filesystem, the progress bar, stdout) is modelled by
explicit parameters; fallible operations return `Option`/`Bool` results.

The repository's `IgnoreRules` (src/ignore_rules.rs) delegates pattern
matching to the `ignore` crate (`ignore::gitignore::Gitignore`), an external
dependency whose behaviour is part of the program: the definitions below
embed that crate's `GitignoreBuilder::add_line`, `Gitignore::matched_stripped`
and `Gitignore::matched_path_or_any_parents` faithfully for the pattern forms
exercised here (escape sequences such as a leading backslash before `!` and
case-insensitive matching are not exercised by any rule considered and are
elided, as noted per definition).
-/

namespace Ztr

/-- One token of a glob segment as compiled by the `globset` crate with
`literal_separator(true)`: a literal character or `*` (a run of zero or more
non-separator characters). -/
inductive GTok where
  | lit (c : Char) : GTok
  | star : GTok
deriving DecidableEq

/-- One segment of a compiled glob: either the `**` segment (zero or more
whole path components) or an ordinary token list matched against a single
component. -/
inductive GSeg where
  | dstar : GSeg
  | seg (toks : List GTok) : GSeg
deriving DecidableEq

/-- A compiled gitignore glob, mirroring the `ignore` crate's `Glob`:
the compiled pattern plus the whitelist (`!` prefix) and directory-only
(trailing `/`) flags. -/
structure Glob where
  segs : List GSeg
  isWhitelist : Bool
  isOnlyDir : Bool
deriving DecidableEq

/-- Fuel-indexed matcher for one glob segment against the characters of one
path component; `star` matches zero or more characters (never a separator,
which cannot occur inside a component in the component-list model).  The
fuel argument only makes the recursion structural; `segMatch` supplies
enough fuel for full evaluation. -/
def segMatchF : Nat → List GTok → List Char → Bool
  | 0, _, _ => false
  | _ + 1, [], [] => true
  | _ + 1, [], _ :: _ => false
  | _ + 1, GTok.lit _ :: _, [] => false
  | f + 1, GTok.lit c :: ts, x :: xs => c == x && segMatchF f ts xs
  | f + 1, GTok.star :: ts, [] => segMatchF f ts []
  | f + 1, GTok.star :: ts, x :: xs =>
      segMatchF f ts (x :: xs) || segMatchF f (GTok.star :: ts) xs

/-- Matches one glob segment against one path component. -/
def segMatch (ts : List GTok) (cs : List Char) : Bool :=
  segMatchF (ts.length + cs.length + 1) ts cs

/-- Fuel-indexed matcher for a compiled glob (list of segments) against a
path given as a list of components; `**` consumes zero or more whole
components. -/
def globSegsMatchF : Nat → List GSeg → List String → Bool
  | 0, _, _ => false
  | _ + 1, [], [] => true
  | _ + 1, [], _ :: _ => false
  | f + 1, GSeg.dstar :: ss, [] => globSegsMatchF f ss []
  | f + 1, GSeg.dstar :: ss, c :: cs =>
      globSegsMatchF f ss (c :: cs) || globSegsMatchF f (GSeg.dstar :: ss) cs
  | _ + 1, GSeg.seg _ :: _, [] => false
  | f + 1, GSeg.seg ts :: ss, c :: cs =>
      segMatch ts c.toList && globSegsMatchF f ss cs

/-- Matches a compiled glob against a relative path (list of components). -/
def globSegsMatch (ss : List GSeg) (comps : List String) : Bool :=
  globSegsMatchF (ss.length + comps.length + 1) ss comps

/-- Splits a character list on a separator character, keeping empty pieces,
as the `globset` compiler splits a glob on `/`. -/
def splitOnChar (sep : Char) : List Char → List (List Char)
  | [] => [[]]
  | c :: cs =>
    match splitOnChar sep cs with
    | [] => if c == sep then [[], []] else [[c]]
    | s :: rest => if c == sep then [] :: s :: rest else (c :: s) :: rest

/-- Tokenizes the characters of one glob segment: `*` becomes a wildcard
token, every other character is literal. -/
def parseToks : List Char → List GTok
  | [] => []
  | c :: cs => (if c == '*' then GTok.star else GTok.lit c) :: parseToks cs

/-- Compiles the glob text into segments: the text is split on `/` and a
segment consisting exactly of `**` becomes the any-components wildcard. -/
def parseSegs (actual : List Char) : List GSeg :=
  (splitOnChar '/' actual).map
    (fun s => if s == ['*', '*'] then GSeg.dstar else GSeg.seg (parseToks s))

/-- Drops trailing whitespace characters, as Rust `str::trim_end`. -/
def trimRightChars (s : List Char) : List Char :=
  (s.reverse.dropWhile Char.isWhitespace).reverse

/-- Embeds `GitignoreBuilder::add_line` of the `ignore` crate: skips comment
and blank lines, strips the `!` negation marker, a leading `/` (root
anchoring), and a trailing `/` (directory-only), prepends the implicit
segment wildcard to patterns that contain no separator, and appends the
compiled glob to the ordered glob list.  The backslash-escape handling of
the crate (escaped `!`, `#`, trailing separator) is not exercised by any
rule considered here and is elided. -/
def addLine (globs : List Glob) (line : String) : List Glob :=
  let l0 := line.toList
  if l0.head? = some '#' then globs else
  let l1 := if l0.reverse.take 2 == [' ', '\\'] then l0 else trimRightChars l0
  if l1.isEmpty then globs else
  let isW := l1.head? = some '!'
  let l2 := if l1.head? = some '!' then l1.tail else l1
  let isAbs := l2.head? = some '/'
  let l3 := if l2.head? = some '/' then l2.tail else l2
  let isDirOnly := l3.getLast? = some '/'
  let l4 := if l3.getLast? = some '/' then l3.dropLast else l3
  let hasSlash := l4.contains '/'
  let hasDStar := l4.take 3 == ['*', '*', '/'] || l4 == ['*', '*']
  let actual := if !isAbs && !hasSlash && !hasDStar then '*' :: '*' :: '/' :: l4 else l4
  let actual :=
    if actual.reverse.take 3 == ['*', '*', '/'] then actual ++ ['/', '*'] else actual
  globs ++ [{ segs := parseSegs actual, isWhitelist := isW, isOnlyDir := isDirOnly }]

/-- Builds the ordered glob list from the rule strings, as `IgnoreRules::new`
adds each rule in order via `GitignoreBuilder::add_line`.  Glob-compilation
errors (impossible for the rules considered) are not represented. -/
def buildGitignore (rules : List String) : List Glob :=
  rules.foldl addLine []

/-- Match result of the `ignore` crate: no rule matched, the last matching
rule ignores the path, or the last matching rule whitelists it. -/
inductive MRes where
  | nomatch : MRes
  | ignore : MRes
  | whitelist : MRes
deriving DecidableEq, BEq

/-- Whether a glob is a live candidate for a path: its pattern matches the
path and, when the glob is directory-only, the path is a directory (the
crate's candidate loop skips directory-only globs for non-directories and
keeps scanning). -/
def globCandOk (g : Glob) (comps : List String) (isDir : Bool) : Bool :=
  globSegsMatch g.segs comps && (!g.isOnlyDir || isDir)

/-- Embeds `Gitignore::matched_stripped`: among all globs whose pattern
matches the path (respecting the directory-only restriction), the
latest-added one decides, yielding whitelist or ignore; with no live
candidate the result is no-match. -/
def matchedStripped (globs : List Glob) (comps : List String) (isDir : Bool) : MRes :=
  match (globs.filter (fun g => globCandOk g comps isDir)).getLast? with
  | none => MRes.nomatch
  | some g => if g.isWhitelist then MRes.whitelist else MRes.ignore

/-- The proper ancestor chain of a relative path, nearest ancestor first,
down to the empty path, as produced by repeatedly taking `Path::parent`. -/
def parentsOf (comps : List String) : List (List String) :=
  (List.range comps.length).reverse.map (fun i => comps.take i)

/-- First non-no-match result over a list of ancestor paths, each tested as
a directory. -/
def firstParentMatch (globs : List Glob) : List (List String) → MRes
  | [] => MRes.nomatch
  | p :: ps =>
    match matchedStripped globs p true with
    | MRes.nomatch => firstParentMatch globs ps
    | r => r

/-- Embeds `Gitignore::matched_path_or_any_parents`: the path itself is
tested first and any match (ignore or whitelist) is returned immediately;
only when the path itself matches no rule are its ancestors tested, nearest
first, each as a directory. -/
def matchedPathOrAnyParents (globs : List Glob) (comps : List String) (isDir : Bool) : MRes :=
  match matchedStripped globs comps isDir with
  | MRes.nomatch => firstParentMatch globs (parentsOf comps)
  | r => r

/-- Componentwise `Path::strip_prefix`: the relative path when the base is
a prefix of the path, otherwise failure. -/
def stripBase (base p : List String) : Option (List String) :=
  if base.isPrefixOf p then some (p.drop base.length) else none

/-- Embeds `IgnoreRules::should_ignore`: strip the base directory from the
path (a path not under the base is never ignored), then ask the gitignore
matcher whether the last applicable match ignores the relative path. -/
def shouldIgnore (rules : List String) (baseDir p : List String) (isDir : Bool) : Bool :=
  match stripBase baseDir p with
  | none => false
  | some rel => matchedPathOrAnyParents (buildGitignore rules) rel isDir == MRes.ignore

/-- Embeds `IgnoreRules::filter_files`: keeps exactly the paths that are not
ignored; the directory-ness of each path (`path.is_dir()` in the source) is
supplied by the filesystem oracle `isDirOf`. -/
def filterFiles (rules : List String) (baseDir : List String)
    (isDirOf : List String → Bool) (files : List (List String)) : List (List String) :=
  files.filter (fun p => !shouldIgnore rules baseDir p (isDirOf p))

/-- Embeds the `Config` struct of src/config.rs: the format tag, the optional
output name, the optional inline ignore list, and the already-resolved
content of the external ignore file (`resolved_ignore_file_content`). -/
structure Config where
  format : String
  outputName : Option String
  ignore : Option (List String)
  resolvedIgnoreFileContent : Option String

/-- The trimmed, non-empty, non-comment lines of the resolved ignore-file
content, exactly as the second loop of `Config::get_ignore_rules` extracts
them (`content.lines()` then trim, skipping empties and `#` comments; the
final empty piece produced by a trailing newline is likewise skipped by the
emptiness test). -/
def fileRuleLines (c : Config) : List String :=
  match c.resolvedIgnoreFileContent with
  | none => []
  | some content =>
    ((content.splitOn "\n").map (fun l => l.trim)).filter
      (fun t => !t.isEmpty && !(t.startsWith "#"))

/-- Inserts a string into a duplicate-free list, keeping the list unchanged
when the string is already present: the effect of `HashSet::insert`. -/
def setInsert (acc : List String) (r : String) : List String :=
  if r ∈ acc then acc else acc ++ [r]

/-- Embeds `Config::get_ignore_rules` of src/config.rs: every inline rule and
every extracted ignore-file line is inserted into a `HashSet<String>` and
the set is collected into a vector.  The set is modelled as a duplicate-free
list in first-insertion order; the real `HashSet` iteration order is
arbitrary (not the insertion order and not the supplied order), so theorems
about the order of this list prove facts about the most order-preserving
reading of the code, and set-level theorems (membership, duplicate collapse)
hold for every iteration order. -/
def getIgnoreRules (c : Config) : List String :=
  let withInline := (c.ignore.getD []).foldl setInsert []
  (fileRuleLines c).foldl setInsert withInline

mutual
/-- A filesystem subtree for the walker model: a named file or a named
directory with an ordered list of children.  `FSDir` is a separate inductive
rather than a nested `List` so that matching and induction stay structural. -/
inductive FSTree where
  | file (name : String) : FSTree
  | dir (name : String) (children : FSDir) : FSTree
/-- An ordered list of sibling subtrees. -/
inductive FSDir where
  | nil : FSDir
  | cons (t : FSTree) (ts : FSDir) : FSDir
end

mutual
/-- Embeds the recursive enumeration of `collect_all_files` (src/main.rs):
`WalkDir` visits every entry of the subtree unconditionally — no ignore rule
is consulted — and every entry that is a file is pushed with its full path
(`pre` is the path of the enclosing directory). -/
def collectFrom (pre : List String) : FSTree → List (List String)
  | FSTree.file n => [pre ++ [n]]
  | FSTree.dir n cs => collectChildren (pre ++ [n]) cs

/-- Enumerates the files of each child subtree in order. -/
def collectChildren (pre : List String) : FSDir → List (List String)
  | FSDir.nil => []
  | FSDir.cons t ts => collectFrom pre t ++ collectChildren pre ts
end

/-- Embeds `collect_all_files(base_dir)`: the walk starts at the base
directory (itself a directory, so never pushed) and enumerates every file
beneath it, with no pruning. -/
def collectAllFiles (baseDir : List String) (children : FSDir) : List (List String) :=
  collectChildren baseDir children

/-- The pipeline of the `Compress` arm of src/main.rs: collect every file
under the base directory, then filter the fully enumerated list with the
ignore rules. -/
def compressPipeline (rules : List String) (baseDir : List String)
    (isDirOf : List String → Bool) (children : FSDir) : List (List String) :=
  filterFiles rules baseDir isDirOf (collectAllFiles baseDir children)

/-- The archive formats dispatched on in src/compressor.rs. -/
inductive Format where
  | zip : Format
  | targz : Format
  | sevenZ : Format
deriving DecidableEq

/-- The format-string match of `compress_directory`: the three supported
tags with their output extensions; every other tag hits the `bail!` arm. -/
def formatOf : String → Option (Format × String)
  | "zip" => some (Format.zip, ".zip")
  | "tar.gz" => some (Format.targz, ".tar.gz")
  | "7z" => some (Format.sevenZ, ".7z")
  | _ => none

/-- Embeds `Config::get_output_name`: the configured name when present,
otherwise the file name of the process' current directory (passed in as
`curDirName`, `none` when unavailable), otherwise `archive`. -/
def getOutputName (c : Config) (curDirName : Option String) : String :=
  match c.outputName with
  | some n => n
  | none => curDirName.getD "archive"

/-- Replaces every backslash with a forward slash: Rust
`str::replace("\\", "/")` for the single-character pattern. -/
def normalizeSlashes (s : List Char) : List Char :=
  s.map (fun c => if c = '\\' then '/' else c)

/-- The characters of a relative path rendered by `Path::to_string_lossy`:
the components joined with the host separator character. -/
def renderPath (sep : Char) : List String → List Char
  | [] => []
  | [c] => c.toList
  | c :: c2 :: rest => c.toList ++ sep :: renderPath sep (c2 :: rest)

/-- The member name `compress_zip` stores for an entry:
`relative_path.to_string_lossy().replace("\\", "/")`. -/
def storedNameZip (sep : Char) (rel : List String) : List Char :=
  normalizeSlashes (renderPath sep rel)

/-- The member name `compress_tar_gz` stores for an entry: the repository
passes the relative path to `tar::Builder::append_path_with_name`, and the
tar crate's `path2bytes` writes the path with backslash separators
normalized to forward slashes (a byte-for-byte copy on separator `/`). -/
def storedNameTarGz (sep : Char) (rel : List String) : List Char :=
  normalizeSlashes (renderPath sep rel)

/-- The member name `compress_7z` stores for an entry:
`relative_path.to_string_lossy().replace("\\", "/")`. -/
def storedName7z (sep : Char) (rel : List String) : List Char :=
  normalizeSlashes (renderPath sep rel)

/-- The member name stored by the writer of each format. -/
def storedName : Format → Char → List String → List Char
  | Format.zip => storedNameZip
  | Format.targz => storedNameTarGz
  | Format.sevenZ => storedName7z

/-- An observable side effect of a writer run on the output handle: an
entry written under a member name, or the finalize step (`finish()`, which
writes the trailer and flushes the compression stream). -/
inductive WAct where
  | wrote (name : List Char) : WAct
  | finished : WAct
deriving DecidableEq

/-- Result of one writer invocation: the ordered output-handle effects and
whether the writer returned `Ok`. -/
structure WriterRun where
  acts : List WAct
  ok : Bool
deriving DecidableEq

/-- Embeds the entry loop of `compress_zip`: for each file, compute the
relative path (`?` on failure aborts with the error, skipping everything
after it including `zip.finish()`), open and read the file (failure likewise
aborts), write the entry; only when the loop completes is `finish` called
and `Ok` returned.  `fs p = true` means `p` is an existing regular file. -/
def zipGo (fs : List String → Bool) (sep : Char) (base : List String) :
    List (List String) → WriterRun
  | [] => { acts := [WAct.finished], ok := true }
  | f :: rest =>
    match stripBase base f with
    | none => { acts := [], ok := false }
    | some rel =>
      if fs f then
        let r := zipGo fs sep base rest
        { acts := WAct.wrote (storedNameZip sep rel) :: r.acts, ok := r.ok }
      else { acts := [], ok := false }

/-- Embeds the entry loop of `compress_tar_gz`: relative-path failure aborts
with the error; `append_path_with_name` opens the file itself and aborts on
failure; `tar.finish()` runs only after the loop completes. -/
def tarGzGo (fs : List String → Bool) (sep : Char) (base : List String) :
    List (List String) → WriterRun
  | [] => { acts := [WAct.finished], ok := true }
  | f :: rest =>
    match stripBase base f with
    | none => { acts := [], ok := false }
    | some rel =>
      if fs f then
        let r := tarGzGo fs sep base rest
        { acts := WAct.wrote (storedNameTarGz sep rel) :: r.acts, ok := r.ok }
      else { acts := [], ok := false }

/-- Embeds the entry loop of `compress_7z`: relative-path failure aborts
with the error; an entry that is not a regular file (`file_path.is_file()`
false) is silently skipped after the relative path is computed;
`sz_writer.finish()` runs only after the loop completes. -/
def sevenZGo (fs : List String → Bool) (sep : Char) (base : List String) :
    List (List String) → WriterRun
  | [] => { acts := [WAct.finished], ok := true }
  | f :: rest =>
    match stripBase base f with
    | none => { acts := [], ok := false }
    | some rel =>
      if fs f then
        let r := sevenZGo fs sep base rest
        { acts := WAct.wrote (storedName7z sep rel) :: r.acts, ok := r.ok }
      else sevenZGo fs sep base rest

/-- The writer invoked by the format dispatch of `compress_directory`. -/
def writerRun : Format → (List String → Bool) → Char → List String →
    List (List String) → WriterRun
  | Format.zip => zipGo
  | Format.targz => tarGzGo
  | Format.sevenZ => sevenZGo

/-- Result of `compress_directory`: the writer's output-handle effects and
either the output path (`Ok`) or `none` (an error was returned). -/
structure DirRun where
  acts : List WAct
  result : Option (List String)
deriving DecidableEq

/-- Embeds `compress_directory` (src/compressor.rs): an unsupported format
tag bails; the output path is `base_dir` joined with the output name and the
format extension; an empty file list returns the output path at once,
invoking no writer; otherwise the format's writer runs and its error, if
any, is returned after the progress bar finishes. -/
def compressDirectory (c : Config) (curDirName : Option String)
    (fs : List String → Bool) (sep : Char) (baseDir : List String)
    (files : List (List String)) : DirRun :=
  match formatOf c.format with
  | none => { acts := [], result := none }
  | some (fmt, ext) =>
    let outPath := baseDir ++ [getOutputName c curDirName ++ ext]
    if files.isEmpty then { acts := [], result := some outPath }
    else
      let r := writerRun fmt fs sep baseDir files
      { acts := r.acts, result := if r.ok then some outPath else none }

/-! Helper lemmas shared by the claim theorems. -/

theorem mem_setInsert (acc : List String) (x r : String) :
    r ∈ setInsert acc x ↔ r ∈ acc ∨ r = x := by
  unfold setInsert
  split
  · constructor
    · exact Or.inl
    · rintro (h | rfl)
      · exact h
      · assumption
  · simp

theorem mem_foldl_setInsert (l : List String) :
    ∀ acc r, r ∈ l.foldl setInsert acc ↔ r ∈ acc ∨ r ∈ l := by
  induction l with
  | nil => simp
  | cons x xs ih =>
    intro acc r
    rw [List.foldl_cons, ih, mem_setInsert]
    simp [or_assoc]

theorem nodup_setInsert (acc : List String) (x : String) (h : acc.Nodup) :
    (setInsert acc x).Nodup := by
  unfold setInsert
  split
  · exact h
  · rename_i hx
    refine List.Nodup.append h (List.nodup_singleton x) ?_
    simpa using hx

theorem nodup_foldl_setInsert (l : List String) :
    ∀ acc, acc.Nodup → (l.foldl setInsert acc).Nodup := by
  induction l with
  | nil => intro acc h; exact h
  | cons x xs ih => intro acc h; exact ih _ (nodup_setInsert acc x h)

theorem zipGo_finished_iff (fs : List String → Bool) (sep : Char) (base : List String) :
    ∀ files, WAct.finished ∈ (zipGo fs sep base files).acts ↔
      (zipGo fs sep base files).ok = true
  | [] => by simp [zipGo]
  | f :: rest => by
    cases h : stripBase base f with
    | none => simp [zipGo, h]
    | some rel =>
      cases hf : fs f with
      | false => simp [zipGo, h, hf]
      | true => simp [zipGo, h, hf, zipGo_finished_iff fs sep base rest]

theorem tarGzGo_finished_iff (fs : List String → Bool) (sep : Char) (base : List String) :
    ∀ files, WAct.finished ∈ (tarGzGo fs sep base files).acts ↔
      (tarGzGo fs sep base files).ok = true
  | [] => by simp [tarGzGo]
  | f :: rest => by
    cases h : stripBase base f with
    | none => simp [tarGzGo, h]
    | some rel =>
      cases hf : fs f with
      | false => simp [tarGzGo, h, hf]
      | true => simp [tarGzGo, h, hf, tarGzGo_finished_iff fs sep base rest]

theorem sevenZGo_finished_iff (fs : List String → Bool) (sep : Char) (base : List String) :
    ∀ files, WAct.finished ∈ (sevenZGo fs sep base files).acts ↔
      (sevenZGo fs sep base files).ok = true
  | [] => by simp [sevenZGo]
  | f :: rest => by
    cases h : stripBase base f with
    | none => simp [sevenZGo, h]
    | some rel =>
      cases hf : fs f with
      | false => simp [sevenZGo, h, hf, sevenZGo_finished_iff fs sep base rest]
      | true => simp [sevenZGo, h, hf, sevenZGo_finished_iff fs sep base rest]

theorem zipGo_ok_stripBase (fs : List String → Bool) (sep : Char) (base : List String) :
    ∀ files, (zipGo fs sep base files).ok = true →
      ∀ f ∈ files, (stripBase base f).isSome
  | [] => by simp
  | f :: rest => by
    intro hok g hg
    cases h : stripBase base f with
    | none => simp [zipGo, h] at hok
    | some rel =>
      cases hf : fs f with
      | false => simp [zipGo, h, hf] at hok
      | true =>
        rcases List.mem_cons.mp hg with rfl | hg'
        · simp [h]
        · exact zipGo_ok_stripBase fs sep base rest (by simpa [zipGo, h, hf] using hok) g hg'

theorem tarGzGo_ok_stripBase (fs : List String → Bool) (sep : Char) (base : List String) :
    ∀ files, (tarGzGo fs sep base files).ok = true →
      ∀ f ∈ files, (stripBase base f).isSome
  | [] => by simp
  | f :: rest => by
    intro hok g hg
    cases h : stripBase base f with
    | none => simp [tarGzGo, h] at hok
    | some rel =>
      cases hf : fs f with
      | false => simp [tarGzGo, h, hf] at hok
      | true =>
        rcases List.mem_cons.mp hg with rfl | hg'
        · simp [h]
        · exact tarGzGo_ok_stripBase fs sep base rest
            (by simpa [tarGzGo, h, hf] using hok) g hg'

theorem sevenZGo_ok_stripBase (fs : List String → Bool) (sep : Char) (base : List String) :
    ∀ files, (sevenZGo fs sep base files).ok = true →
      ∀ f ∈ files, (stripBase base f).isSome
  | [] => by simp
  | f :: rest => by
    intro hok g hg
    cases h : stripBase base f with
    | none => simp [sevenZGo, h] at hok
    | some rel =>
      rcases List.mem_cons.mp hg with rfl | hg'
      · simp [h]
      · cases hf : fs f with
        | false =>
          exact sevenZGo_ok_stripBase fs sep base rest
            (by simpa [sevenZGo, h, hf] using hok) g hg'
        | true =>
          exact sevenZGo_ok_stripBase fs sep base rest
            (by simpa [sevenZGo, h, hf] using hok) g hg'

theorem writerRun_ok_stripBase (fmt : Format) (fs : List String → Bool) (sep : Char)
    (base : List String) (files : List (List String))
    (hok : (writerRun fmt fs sep base files).ok = true) :
    ∀ f ∈ files, (stripBase base f).isSome := by
  cases fmt
  · exact zipGo_ok_stripBase fs sep base files hok
  · exact tarGzGo_ok_stripBase fs sep base files hok
  · exact sevenZGo_ok_stripBase fs sep base files hok

theorem normalizeSlashes_of_no_backslash (l : List Char) (h : ∀ ch ∈ l, ch ≠ '\\') :
    normalizeSlashes l = l := by
  unfold normalizeSlashes
  conv_rhs => rw [← List.map_id l]
  exact List.map_congr_left (fun a ha => by simp [h a ha])

theorem normalizeSlashes_renderPath (sep : Char) (hsep : sep = '/' ∨ sep = '\\') :
    ∀ rel, (∀ s ∈ rel, ∀ ch ∈ s.toList, ch ≠ '\\') →
      normalizeSlashes (renderPath sep rel) = renderPath '/' rel
  | [], _ => rfl
  | [c], h => by
    simpa [renderPath] using normalizeSlashes_of_no_backslash c.toList (h c (by simp))
  | c :: c2 :: rest, h => by
    have ih := normalizeSlashes_renderPath sep hsep (c2 :: rest)
      (fun s hs => h s (List.mem_cons_of_mem _ hs))
    have hc := normalizeSlashes_of_no_backslash c.toList (h c (by simp))
    have hmid : normalizeSlashes [sep] = ['/'] := by
      rcases hsep with rfl | rfl <;> simp [normalizeSlashes]
    calc normalizeSlashes (renderPath sep (c :: c2 :: rest))
        = normalizeSlashes (c.toList ++ [sep] ++ renderPath sep (c2 :: rest)) := by
          simp [renderPath]
      _ = normalizeSlashes c.toList ++ normalizeSlashes [sep] ++
            normalizeSlashes (renderPath sep (c2 :: rest)) := by
          simp [normalizeSlashes]
      _ = c.toList ++ ['/'] ++ renderPath '/' (c2 :: rest) := by rw [hc, hmid, ih]
      _ = renderPath '/' (c :: c2 :: rest) := by simp [renderPath]

/-! The claim theorems. -/

/-- Claim C1, counterexample.  The claim states that the rule sequence handed
to the matcher preserves the rules exactly in the order supplied, with
duplicate rule text never collapsed in a way that changes which rule is the
last matching one.  For the inline list `*.log, !important.log, *.log`,
`Config::get_ignore_rules` collapses the duplicate `*.log` (the `HashSet`
keeps one copy regardless of iteration order), and even under the most
order-preserving reading of the set's iteration order the matcher outcome on
`important.log` flips from ignored (supplied sequence) to not ignored
(collapsed sequence). -/
theorem c1_counterexample :
    getIgnoreRules
      (Config.mk "zip" none (some ["*.log", "!important.log", "*.log"]) none) =
      ["*.log", "!important.log"] ∧
    (getIgnoreRules
      (Config.mk "zip" none (some ["*.log", "!important.log", "*.log"]) none)).length = 2 ∧
    shouldIgnore ["*.log", "!important.log"] [] ["important.log"] false = false ∧
    shouldIgnore ["*.log", "!important.log", "*.log"] [] ["important.log"] false = true := by
  refine ⟨by decide, by decide, by decide, by decide⟩

/-- Claim C1, amended.  `Config::get_ignore_rules` hands the matcher the set
of distinct rule texts drawn from the inline list and from the trimmed,
non-empty, non-comment lines of the external rule file: the result is
duplicate-free and contains a rule exactly when one of the two sources
supplies it.  Duplicates are always collapsed and the supplied order is not
guaranteed (the `HashSet` iterates in arbitrary order). -/
theorem c1_rules_dedup_set (c : Config) :
    (getIgnoreRules c).Nodup ∧
      ∀ r, r ∈ getIgnoreRules c ↔ (r ∈ c.ignore.getD [] ∨ r ∈ fileRuleLines c) := by
  constructor
  · exact nodup_foldl_setInsert _ _ (nodup_foldl_setInsert _ _ List.nodup_nil)
  · intro r
    unfold getIgnoreRules
    rw [mem_foldl_setInsert, mem_foldl_setInsert]
    simp

/-- Claim C2.  For the ordered rule set `*.log, !important.log, *.log`, the
file `important.log` is decided as ignored: the matcher scans the full
ordered list and the latest matching rule (the trailing `*.log`) wins;
it does not stop at the negation, as truncating the list after the negation
flips the decision. -/
theorem c2_last_match_wins :
    shouldIgnore ["*.log", "!important.log", "*.log"]
      ["base"] ["base", "important.log"] false = true ∧
    shouldIgnore ["*.log", "!important.log"]
      ["base"] ["base", "important.log"] false = false := by
  refine ⟨by decide, by decide⟩

/-- Claim C3, behaviour of the code at the failing input.  For the rules
`build/, !build/keep.txt`, the directory `build` is decided as ignored, yet
the file `build/keep.txt` is decided as NOT ignored: the `ignore` crate's
`matched_path_or_any_parents` tests the path itself first, and its whitelist
match (`!build/keep.txt`) is returned before any ancestor directory is
consulted — the negation does reach inside the ignored directory, contrary
to the claim and to gitignore's documented restriction. -/
theorem c3_negation_reaches_inside_ignored_dir :
    shouldIgnore ["build/", "!build/keep.txt"] ["base"] ["base", "build"] true = true ∧
    shouldIgnore ["build/", "!build/keep.txt"]
      ["base"] ["base", "build", "keep.txt"] false = false ∧
    matchedStripped (buildGitignore ["build/", "!build/keep.txt"])
      ["build", "keep.txt"] false = MRes.whitelist := by
  refine ⟨by decide, by decide, by decide⟩

/-- Claim C4, counterexample.  The claim states that no filesystem entry
strictly inside an ignored directory is ever enumerated.  In the tree
`build/x.o, y.txt` with the rule `build/`, the directory `build` is decided
as ignored, yet `collect_all_files` (which consults no rule at all)
enumerates `build/x.o`; the entry only disappears later when `filter_files`
is applied to the fully enumerated list. -/
theorem c4_counterexample :
    shouldIgnore ["build/"] ["base"] ["base", "build"] true = true ∧
    ["base", "build", "x.o"] ∈ collectAllFiles ["base"]
      (FSDir.cons (FSTree.dir "build" (FSDir.cons (FSTree.file "x.o") FSDir.nil))
        (FSDir.cons (FSTree.file "y.txt") FSDir.nil)) ∧
    ["base", "build", "x.o"] ∉ compressPipeline ["build/"] ["base"] (fun _ => false)
      (FSDir.cons (FSTree.dir "build" (FSDir.cons (FSTree.file "x.o") FSDir.nil))
        (FSDir.cons (FSTree.file "y.txt") FSDir.nil)) := by
  refine ⟨by decide, by decide, by decide⟩

/-- Claim C4, amended.  The walk is not pruned: `collect_all_files`
enumerates every file of the tree without consulting the ignore rules, and
filtering is applied post-hoc — a path is in the final list exactly when it
is in the full enumeration and is not decided as ignored. -/
theorem c4_posthoc_filter (rules : List String) (baseDir : List String)
    (isDirOf : List String → Bool) (children : FSDir) (p : List String) :
    p ∈ compressPipeline rules baseDir isDirOf children ↔
      p ∈ collectAllFiles baseDir children ∧
        shouldIgnore rules baseDir p (isDirOf p) = false := by
  simp [compressPipeline, filterFiles, List.mem_filter]

/-- Claim C5, counterexample.  The claim states that when writing an entry
fails the writer still finalizes the output (trailer written, stream
flushed) before returning the error.  With a filesystem on which no file
opens, each writer aborts on its first entry (`zip`/`tar.gz`: the file-open
error propagates with `?`; `7z`: the relative-path error, since the base
`b` is not a prefix of `a`) and the finalize step never runs. -/
theorem c5_counterexample :
    ((writerRun Format.zip (fun _ => false) '/' [] [["a"]]).ok = false ∧
      WAct.finished ∉ (writerRun Format.zip (fun _ => false) '/' [] [["a"]]).acts) ∧
    ((writerRun Format.targz (fun _ => false) '/' [] [["a"]]).ok = false ∧
      WAct.finished ∉ (writerRun Format.targz (fun _ => false) '/' [] [["a"]]).acts) ∧
    ((writerRun Format.sevenZ (fun _ => false) '/' ["b"] [["a"]]).ok = false ∧
      WAct.finished ∉ (writerRun Format.sevenZ (fun _ => false) '/' ["b"] [["a"]]).acts) := by
  refine ⟨⟨by decide, by decide⟩, ⟨by decide, by decide⟩, ⟨by decide, by decide⟩⟩

/-- Claim C5, amended.  For every format and entry list, the writer
finalizes the output exactly when every entry is written successfully: the
finalize step (`finish()`) is reached if and only if the run returns `Ok`;
when writing an entry fails, the error is returned immediately and the
explicit finalize call is skipped. -/
theorem c5_finalize_only_on_success (fmt : Format) (fs : List String → Bool) (sep : Char)
    (base : List String) (files : List (List String)) :
    (writerRun fmt fs sep base files).ok = true ↔
      WAct.finished ∈ (writerRun fmt fs sep base files).acts := by
  cases fmt
  · exact (zipGo_finished_iff fs sep base files).symm
  · exact (tarGzGo_finished_iff fs sep base files).symm
  · exact (sevenZGo_finished_iff fs sep base files).symm

/-- Claim C6.  For the single rule `build/`, the directory `build` is
decided as ignored, and the file `build/output.o` is decided as ignored even
though no rule matches the file itself (its own match result is no-match):
the decision comes from its ancestor directory `build`, which is tested and
found ignored. -/
theorem c6_ancestor_dir_forces_ignore :
    shouldIgnore ["build/"] ["base"] ["base", "build"] true = true ∧
    shouldIgnore ["build/"] ["base"] ["base", "build", "output.o"] false = true ∧
    matchedStripped (buildGitignore ["build/"]) ["build", "output.o"] false = MRes.nomatch ∧
    matchedStripped (buildGitignore ["build/"]) ["build"] true = MRes.ignore := by
  refine ⟨by decide, by decide, by decide, by decide⟩

/-- Claim C7.  For every supported format, if some entry's path is not under
the base directory (its relative path cannot be computed), `compress_directory`
returns an error: the relative-path failure aborts the run and the entry is
never silently skipped. -/
theorem c7_relpath_failure_aborts (c : Config) (curDirName : Option String)
    (fs : List String → Bool) (sep : Char) (baseDir : List String)
    (files : List (List String)) (fmt : Format) (ext : String)
    (hfmt : formatOf c.format = some (fmt, ext))
    (hbad : ∃ f ∈ files, stripBase baseDir f = none) :
    (compressDirectory c curDirName fs sep baseDir files).result = none := by
  obtain ⟨f, hf, hnone⟩ := hbad
  have hne : files.isEmpty = false := by
    cases files with
    | nil => simp at hf
    | cons a l => simp
  have hok : (writerRun fmt fs sep baseDir files).ok = false := by
    cases hcase : (writerRun fmt fs sep baseDir files).ok with
    | false => rfl
    | true =>
      have := writerRun_ok_stripBase fmt fs sep baseDir files hcase f hf
      rw [hnone] at this
      simp at this
  simp [compressDirectory, hfmt, hne, hok]

/-- Witness for claim C7 at a concrete input: the base `b` is not a prefix
of the single entry `a`, and the zip run errors. -/
theorem c7_witness :
    formatOf "zip" = some (Format.zip, ".zip") ∧
    (∃ f ∈ [["a"]], stripBase ["b"] f = none) ∧
    (compressDirectory (Config.mk "zip" (some "out") none none)
      none (fun _ => true) '/' ["b"] [["a"]]).result = none :=
  ⟨by decide, ⟨["a"], by decide⟩,
    c7_relpath_failure_aborts (Config.mk "zip" (some "out") none none)
      none (fun _ => true) '/' ["b"] [["a"]]
      Format.zip ".zip" (by decide) ⟨["a"], by decide, by decide⟩⟩

/-- Claim C8.  For every supported format, when the filtered file list is
empty `compress_directory` returns success with the output path, invokes no
writer (no output-handle effect is produced), and hence no writer error can
occur. -/
theorem c8_empty_input_ok (c : Config) (curDirName : Option String)
    (fs : List String → Bool) (sep : Char) (baseDir : List String)
    (fmt : Format) (ext : String) (hfmt : formatOf c.format = some (fmt, ext)) :
    compressDirectory c curDirName fs sep baseDir [] =
      DirRun.mk [] (some (baseDir ++ [getOutputName c curDirName ++ ext])) := by
  simp [compressDirectory, hfmt]

/-- Witness for claim C8 at a concrete input: an empty file list under the
`tar.gz` format yields success with `base/out.tar.gz` and no writer
effects. -/
theorem c8_witness :
    formatOf "tar.gz" = some (Format.targz, ".tar.gz") ∧
    compressDirectory (Config.mk "tar.gz" (some "out") none none)
      none (fun _ => true) '/' ["base"] [] =
      DirRun.mk [] (some ["base", "out.tar.gz"]) :=
  ⟨by decide,
    c8_empty_input_ok (Config.mk "tar.gz" (some "out") none none)
      none (fun _ => true) '/' ["base"] Format.targz ".tar.gz" (by decide)⟩

/-- Claim C9.  For every format and every relative path whose components
contain no backslash, the member name stored in the archive is the
components joined with forward slashes, whether the host separator is `/`
or `\`: host-convention backslash separators are normalized away. -/
theorem c9_forward_slash_names (fmt : Format) (sep : Char) (rel : List String)
    (hsep : sep = '/' ∨ sep = '\\')
    (hrel : ∀ s ∈ rel, ∀ ch ∈ s.toList, ch ≠ '\\') :
    storedName fmt sep rel = renderPath '/' rel := by
  cases fmt
  · exact normalizeSlashes_renderPath sep hsep rel hrel
  · exact normalizeSlashes_renderPath sep hsep rel hrel
  · exact normalizeSlashes_renderPath sep hsep rel hrel

/-- Witness for claim C9 at a concrete input: under a backslash host
separator, the zip writer stores `sub\b.txt` as `sub/b.txt`. -/
theorem c9_witness :
    ('\\' = '/' ∨ ('\\' : Char) = '\\') ∧
    (∀ s ∈ ["sub", "b.txt"], ∀ ch ∈ s.toList, ch ≠ '\\') ∧
    storedName Format.zip '\\' ["sub", "b.txt"] = renderPath '/' ["sub", "b.txt"] :=
  ⟨Or.inr rfl, by decide,
    c9_forward_slash_names Format.zip '\\' ["sub", "b.txt"] (Or.inr rfl) (by decide)⟩

/-- Claim C10.  For every rule set, every directory flag, and every path of
which the base directory is not a prefix, `should_ignore` returns false:
the failed `strip_prefix` makes the decision `false` without consulting any
rule, and no error is raised. -/
theorem c10_outside_base_not_ignored (rules : List String) (base p : List String)
    (d : Bool) (h : base.isPrefixOf p = false) :
    shouldIgnore rules base p d = false := by
  simp [shouldIgnore, stripBase, h]

/-- Witness for claim C10 at a concrete input: `b` is not a prefix of
`c/x.log`, so the path is not ignored even though `*.log` would match it. -/
theorem c10_witness :
    (["b"].isPrefixOf ["c", "x.log"] = false) ∧
    shouldIgnore ["*.log"] ["b"] ["c", "x.log"] false = false :=
  ⟨by decide, c10_outside_base_not_ignored ["*.log"] ["b"] ["c", "x.log"] false (by decide)⟩

end Ztr
